import Mathlib

/-!
Verification of the `ntree-rs` n-ary tree library.

The development shallowly embeds the data model and the traversal engine of
the crate. Rust's `Node<T>` (a value plus an ordered `Vec` of children)
becomes a nested inductive rose tree; every recursive Rust function over the
children vector is embedded as a mutual pair of Lean functions (one on
nodes, one on child lists), which keeps all definitions kernel-computable.
`usize` is modelled as `Nat`, with `saturating_add` made explicit where the
source uses it. `FnMut` visitors are embedded as state-threading functions;
pure (`Fn`) visitors as plain functions. Fallible behaviour (a Rust panic)
is modelled with `Option`, `none` standing for the panic.
-/

namespace NTreeRS

/-- Embeds `Node<T>` from `ntree/src/lib.rs`: one value of type `α` and an
ordered list of child nodes. -/
inductive Node (α : Type) : Type where
  | mk (value : α) (children : List (Node α)) : Node α
deriving Repr

/-- Embeds the `value` field access (`Node::value`). -/
def Node.value {α : Type} : Node α → α
  | .mk v _ => v

/-- Embeds the `children` field access (`Node::children`). -/
def Node.children {α : Type} : Node α → List (Node α)
  | .mk _ cs => cs

/-- Embeds `Node::new`: wraps a value into a childless node. -/
def Node.new {α : Type} (value : α) : Node α :=
  Node.mk value []

/-- Modelled from the spec: `Node::with_children` is called throughout the
traversal code (`Node::new(..).with_children(children)`) but its definition
is missing from the sampled sources; §4.3 of the spec ("isomorphic tree
(same shape/child order)") forces it to install the given ordered list as
the node's child list. It is only ever applied to freshly created childless
nodes. -/
def Node.with_children {α : Type} : Node α → List (Node α) → Node α
  | .mk v _, cs => .mk v cs

/-- Embeds `Node::children_len`. -/
def Node.children_len {α : Type} (n : Node α) : Nat :=
  n.children.length

/-- Embeds `Node::add_child` from `ntree/src/lib.rs`: pushes the child at the
end of the child vector and returns `self.children.len()` (the new count).
Mutation of `&mut self` is modelled by returning the updated node next to
the returned `usize`. -/
def Node.add_child {α : Type} (n : Node α) (child : Node α) : Node α × Nat :=
  let cs := n.children ++ [child]
  (.mk n.value cs, cs.length)

/-- Embeds `Node::add_child` from the legacy `src/node.rs` snapshot: pushes
the child and returns `self.children.len() - 1`, i.e. the index of the
appended child. -/
def Node.add_child_node_rs {α : Type} (n : Node α) (child : Node α) : Node α × Nat :=
  let cs := n.children ++ [child]
  (.mk n.value cs, cs.length - 1)

/-- Embeds `Node::remove_child`:
`(index < self.children.len()).then_some(self.children.remove(index))`.
Rust's `bool::then_some` evaluates its argument eagerly, so
`Vec::remove(index)` runs unconditionally and panics when
`index >= self.children.len()`; the panic is modelled by `none`. When the
call returns, the result pairs the produced `Option<Node<T>>` with the
updated node. -/
def Node.remove_child {α : Type} (n : Node α) (index : Nat) : Option (Option (Node α) × Node α) :=
  let guard := index < n.children.length
  match n.children[index]? with
  | none => none
  | some c => some (if guard then some c else none, .mk n.value (n.children.eraseIdx index))

/-- Models `usize::MAX` on the 64-bit targets the crate is built for. -/
def USIZE_MAX : Nat := 2 ^ 64 - 1

/-- Models `usize::saturating_add`. -/
def satAdd (a b : Nat) : Nat := min (a + b) USIZE_MAX

mutual
/-- Embeds `Node::size` from `ntree/src/lib.rs`:
`children.iter().fold(children.len(), |len, node| len.saturating_add(node.size()))`. -/
def Node.size {α : Type} : Node α → Nat
  | .mk _ cs => Node.sizeFold cs.length cs

/-- Embeds the `fold` inside `Node::size`, accumulator first. -/
def Node.sizeFold {α : Type} : Nat → List (Node α) → Nat
  | acc, [] => acc
  | acc, c :: cs => Node.sizeFold (satAdd acc (Node.size c)) cs
end

mutual
/-- Embeds `Node::height` from `ntree/src/lib.rs`:
`children.iter().map(height).max().unwrap_or_default().saturating_add(1)`. -/
def Node.height {α : Type} : Node α → Nat
  | .mk _ cs => satAdd (Node.heightMax cs) 1

/-- Embeds `Iterator::max().unwrap_or_default()` over the children heights
(`0` for a childless node). -/
def Node.heightMax {α : Type} : List (Node α) → Nat
  | [] => 0
  | c :: cs => max (Node.height c) (Node.heightMax cs)
end

mutual
/-- Counts the proper descendants of a node: the reference notion the spec
words "total descendant count" denote, written without machine arithmetic. -/
def Node.descendants {α : Type} : Node α → Nat
  | .mk _ cs => Node.descendantsList cs

/-- Sum over a child list of one (for the child) plus its descendants. -/
def Node.descendantsList {α : Type} : List (Node α) → Nat
  | [] => 0
  | c :: cs => (1 + Node.descendants c) + Node.descendantsList cs
end

mutual
/-- Modelled from the spec's words "longest root-to-leaf edge count": `0`
for a leaf, otherwise one more than the largest child edge count. Used only
to compare the spec's description of `height` with the code. -/
def Node.longestEdgeCount {α : Type} : Node α → Nat
  | .mk _ cs =>
    match Node.edgeMaxList cs with
    | none => 0
    | some m => 1 + m

/-- Maximum of the edge counts of a child list, `none` when it is empty. -/
def Node.edgeMaxList {α : Type} : List (Node α) → Option Nat
  | [] => none
  | c :: cs =>
    some
      (match Node.edgeMaxList cs with
       | none => Node.longestEdgeCount c
       | some m => max (Node.longestEdgeCount c) m)
end

/-- Descends along a list of child indices, returning the subtree reached,
if the path exists. Reference accessor used to speak about "positions" in a
tree. -/
def Node.getPath {α : Type} : Node α → List Nat → Option (Node α)
  | t, [] => some t
  | t, i :: p =>
    match t.children[i]? with
    | some c => Node.getPath c p
    | none => none

mutual
/-- Embeds `Traverse::preorder` from `ntree/src/traversal/sync.rs`
(`immersion`: `f(root); children.iter().for_each(|c| immersion(c, f))`).
The `FnMut` visitor is embedded as a function threading its captured state
of type `σ`. -/
def preorder_immersion {α σ : Type} (f : Node α → σ → σ) : Node α → σ → σ
  | .mk v cs, s => preorder_children f cs (f (.mk v cs) s)

/-- Embeds the `for_each` over the children inside `Traverse::preorder`. -/
def preorder_children {α σ : Type} (f : Node α → σ → σ) : List (Node α) → σ → σ
  | [], s => s
  | c :: cs, s => preorder_children f cs (preorder_immersion f c s)
end

mutual
/-- Embeds `Traverse::postorder` from `ntree/src/traversal/sync.rs`
(`immersion`: `children.iter().for_each(|c| immersion(c, f)); f(root)`). -/
def postorder_immersion {α σ : Type} (f : Node α → σ → σ) : Node α → σ → σ
  | .mk v cs, s => f (.mk v cs) (postorder_children f cs s)

/-- Embeds the `for_each` over the children inside `Traverse::postorder`. -/
def postorder_children {α σ : Type} (f : Node α → σ → σ) : List (Node α) → σ → σ
  | [], s => s
  | c :: cs, s => postorder_children f cs (postorder_immersion f c s)
end

mutual
/-- Embeds `for_each_immersion` of the `for_each!` macro in
`ntree/src/traversal/macros.rs`: the children are traversed first, then the
visitor runs on the root (the macro's documented post-order), again with the
`FnMut` state threaded explicitly. -/
def for_each_immersion {α σ : Type} (f : Node α → σ → σ) : Node α → σ → σ
  | .mk v cs, s => f (.mk v cs) (for_each_children f cs s)

/-- Embeds the `for_each` over the children inside `for_each_immersion`. -/
def for_each_children {α σ : Type} (f : Node α → σ → σ) : List (Node α) → σ → σ
  | [], s => s
  | c :: cs, s => for_each_children f cs (for_each_immersion f c s)
end

mutual
/-- Embeds `reduce_immersion` of the `reduce!` macro
(`ntree/src/traversal/macros.rs`) and `Traverse::reduce`
(`ntree/src/traversal/sync.rs`): the children results are collected in
child order, then the visitor combines the root with them. -/
def reduce_immersion {α R : Type} (f : Node α → List R → R) : Node α → R
  | .mk v cs => f (.mk v cs) (reduce_results f cs)

/-- Embeds `children.iter().map(|child| reduce_immersion(child, f)).collect()`. -/
def reduce_results {α R : Type} (f : Node α → List R → R) : List (Node α) → List R
  | [] => []
  | c :: cs => reduce_immersion f c :: reduce_results f cs
end

mutual
/-- Embeds `cascade_immersion` of the `cascade!` macro and
`TraverseMut::cascade` (`ntree/src/traversal/sync.rs`):
`let base = f(root, base); children.iter_mut().for_each(|c| immersion(c, &base, f))`.
The `FnMut(&mut Node<T>, &R) -> R` visitor mutates the node it is handed;
per the data-model invariant of §3 of the spec (the child list is fixed
during a traversal pass) the mutation is of the node's value, so the
visitor is embedded as producing the replacement value together with the
returned `R`. -/
def cascade_immersion {α R : Type} (f : Node α → R → α × R) : Node α → R → Node α
  | .mk v cs, base =>
    let r := f (.mk v cs) base
    .mk r.1 (cascade_children f cs r.2)

/-- Embeds the `for_each` over the children inside `cascade_immersion`. -/
def cascade_children {α R : Type} (f : Node α → R → α × R) : List (Node α) → R → List (Node α)
  | [], _ => []
  | c :: cs, base => cascade_immersion f c base :: cascade_children f cs base
end

mutual
/-- Embeds `map_immersion` of the `map!` macro
(`ntree/src/traversal/macros.rs`):
`Node::new(f(root)).with_children(children.iter().map(..).collect())` —
the visitor runs on the parent before its children (pre-order). -/
def map_immersion {α β : Type} (f : Node α → β) : Node α → Node β
  | .mk v cs => Node.with_children (Node.new (f (.mk v cs))) (map_children f cs)

/-- Embeds `children.iter().map(|child| map_immersion(child, f)).collect()`. -/
def map_children {α β : Type} (f : Node α → β) : List (Node α) → List (Node β)
  | [] => []
  | c :: cs => map_immersion f c :: map_children f cs
end

mutual
/-- Embeds `map_immersion` of the `map_pre!` macro
(`ntree/src/traversal/macros.rs`): the parent result is computed first
(`let parent = Node::new(f(root, base))`) and handed to the children
(`map_immersion(node, &parent.value, f)`). -/
def map_pre_immersion {α R : Type} (f : Node α → R → R) : Node α → R → Node R
  | .mk v cs, base =>
    let parent := Node.new (f (.mk v cs) base)
    Node.with_children parent (map_pre_children f cs parent.value)

/-- Embeds the children mapping inside `map_pre!`. -/
def map_pre_children {α R : Type} (f : Node α → R → R) : List (Node α) → R → List (Node R)
  | [], _ => []
  | c :: cs, base => map_pre_immersion f c base :: map_pre_children f cs base
end

mutual
/-- Embeds `map_immersion` of the asynchronous `map!` macro
(`ntree/src/traversal/macros_async.rs`):
`Node::new(f(root)).with_children(join_all(children.iter().map(..)).await)`.
`futures::join_all` resolves the child futures and yields their results in
the original child-index order, so with a side-effect-free (`Fn`) visitor
the produced value is fully determined by this dataflow, whatever the
scheduler interleaving. -/
def async_map_immersion {α β : Type} (f : Node α → β) : Node α → Node β
  | .mk v cs => Node.with_children (Node.new (f (.mk v cs))) (async_map_children f cs)

/-- Embeds the joined child futures of the asynchronous `map!`, in
child-index order as `join_all` reassembles them. -/
def async_map_children {α β : Type} (f : Node α → β) : List (Node α) → List (Node β)
  | [] => []
  | c :: cs => async_map_immersion f c :: async_map_children f cs
end

mutual
/-- Embeds `reduce_immersion` of the asynchronous `reduce!` macro
(`ntree/src/traversal/macros_async.rs`): the child futures are joined
(`join_all(..).await`, results in child-index order), then
`f(root, results)` runs. -/
def async_reduce_immersion {α R : Type} (f : Node α → List R → R) : Node α → R
  | .mk v cs => f (.mk v cs) (async_reduce_results f cs)

/-- Embeds the joined child futures of the asynchronous `reduce!`. -/
def async_reduce_results {α R : Type} (f : Node α → List R → R) : List (Node α) → List R
  | [] => []
  | c :: cs => async_reduce_immersion f c :: async_reduce_results f cs
end

mutual
/-- Embeds `for_each_immersion` of the asynchronous `for_each!` macro
(`ntree/src/traversal/macros_async.rs`): the child futures are joined
first, then `f(root)` runs. The visitor there is a pure `Fn`; to count or
observe its invocations the embedding threads a state in the joined order,
which is faithful for any observation (such as an invocation count) that
does not depend on sibling interleaving. -/
def async_for_each_immersion {α σ : Type} (f : Node α → σ → σ) : Node α → σ → σ
  | .mk v cs, s => f (.mk v cs) (async_for_each_children f cs s)

/-- Embeds the joined child futures of the asynchronous `for_each!`. -/
def async_for_each_children {α σ : Type} (f : Node α → σ → σ) : List (Node α) → σ → σ
  | [], s => s
  | c :: cs, s => async_for_each_children f cs (async_for_each_immersion f c s)
end

/-- Embeds the `Iterator::next` loop of `InPre`
(`ntree/src/traversal/traverse/mod.rs`): the pending stack is a `Vec` whose
end is the stack top, modelled as a list whose head is the top; `next` pops
a node, pushes its children reversed (`extend(children.iter().rev())`, so
the first child ends on top) and yields the node. `runInPre` iterates
`next` to exhaustion, collecting the yielded nodes; `fuel` bounds the
number of steps, which suffices for the concrete trees it is applied to. -/
def runInPre {α : Type} : Nat → List (Node α) → List (Node α)
  | 0, _ => []
  | _, [] => []
  | fuel + 1, n :: rest => n :: runInPre fuel (n.children ++ rest)

/-- Embeds the `Iterator::next` loop of `InPost`
(`ntree/src/traversal/traverse/mod.rs`): the stack holds `(node, next_child)`
pairs; when `node.children.get(next_child)` exists the entry's counter is
bumped and the child is pushed with counter `0`, otherwise the entry is
popped and its node yielded. -/
def runInPost {α : Type} : Nat → List (Node α × Nat) → List (Node α)
  | 0, _ => []
  | _, [] => []
  | fuel + 1, (n, i) :: rest =>
    match n.children[i]? with
    | some c => runInPost fuel ((c, 0) :: (n, i + 1) :: rest)
    | none => n :: runInPost fuel rest

/-- Embeds the `Order` trait of `ntree/src/order/mod.rs` and
`ntree/src/traversal/mod.rs`: `evaluate_self` decides whether the node's
value is evaluated at the given iteration, `continue_with` names the child
index to descend into. -/
structure OrderPolicy (α : Type) where
  evaluate_self : Node α → Nat → Bool
  continue_with : Node α → Nat → Option Nat

/-- Embeds the `Order` implementation of `Preorder`:
`evaluate_self = (it == 0)`, `continue_with = Some(it)`. -/
def PreorderPolicy (α : Type) : OrderPolicy α :=
  ⟨fun _ it => it == 0, fun _ it => some it⟩

/-- Embeds the `Order` implementation of `Postorder`:
`evaluate_self = (it == node.children.len())`, `continue_with = Some(it)`. -/
def PostorderPolicy (α : Type) : OrderPolicy α :=
  ⟨fun n it => it == n.children.length, fun _ it => some it⟩

mutual
/-- Bounds every per-node fuel requirement of `with_order_loop`: the
largest child count appearing anywhere in the tree. -/
def Node.maxDeg {α : Type} : Node α → Nat
  | .mk _ cs => max cs.length (Node.maxDegList cs)

/-- Maximum of `maxDeg` over a child list. -/
def Node.maxDegList {α : Type} : List (Node α) → Nat
  | [] => 0
  | c :: cs => max (Node.maxDeg c) (Node.maxDegList cs)
end

mutual
/-- Embeds the per-node visitation loop of `map_immersion` in
`ntree/src/order/with_order/mod.rs`:

```
for it .. {
  if O::evaluate_self(root, it) { value = Some(f(root, &children)); }
  let Some(index) = O::continue_with(root, it) else { continue; };
  let Some(child) = root.children.get(index) else { break; };
  children.push(map_immersion(child, f));
}
```

The spec (§4.1) presents this as an unbounded `loop`; the embedding follows
that reading, spending one unit of `lf` per iteration so that `none` means
the loop has not stopped within `lf` iterations, while a `some` result can
only arise from the `break` on an out-of-range child index. Each
recursively visited child restarts the loop with the per-node budget `F`. -/
def with_order_loop {α R : Type} (O : OrderPolicy α) (f : Node α → List (Node R) → R)
    (F : Nat) : Node α → Nat → Nat → Option R → List (Node R) →
    Option (Option R × List (Node R))
  | _, 0, _, _, _ => none
  | root, lf + 1, it, value, children =>
    let v := if O.evaluate_self root it then some (f root children) else value
    match O.continue_with root it with
    | none => with_order_loop O f F root lf (it + 1) v children
    | some index =>
      match hc : root.children[index]? with
      | none => some (v, children)
      | some child =>
        match with_order_map O f F child with
        | none => none
        | some mapped => with_order_loop O f F root lf (it + 1) v (children ++ [mapped])
termination_by root lf _ _ _ => (sizeOf root, 0, lf)
decreasing_by
  · exact Prod.Lex.right _ (Prod.Lex.right _ (Nat.lt_succ_self _))
  · refine Prod.Lex.left _ _ ?_
    have hmem : child ∈ root.children := by
      obtain ⟨hi, rfl⟩ := List.getElem?_eq_some_iff.mp hc
      exact List.getElem_mem hi
    calc sizeOf child < sizeOf root.children := List.sizeOf_lt_of_mem hmem
      _ ≤ sizeOf root := by
          cases root with
          | mk v cs => simp [Node.children]; try omega
  · exact Prod.Lex.right _ (Prod.Lex.right _ (Nat.lt_succ_self _))

/-- Embeds `map_immersion` of `ntree/src/order/with_order/mod.rs` around
the loop: run the per-node loop (budget `F`), then assemble
`Node::new(value.unwrap_or_else(|| f(root, &children))).with_children(children)`. -/
def with_order_map {α R : Type} (O : OrderPolicy α) (f : Node α → List (Node R) → R)
    (F : Nat) (root : Node α) : Option (Node R) :=
  match with_order_loop O f F root F 0 none [] with
  | none => none
  | some (value, children) =>
    some (Node.with_children (Node.new (value.getD (f root children))) children)
termination_by (sizeOf root, 1, 0)
decreasing_by
  exact Prod.Lex.right _ (Prod.Lex.left _ _ (Nat.lt_succ_self 0))
end

mutual
/-- Reference pre-order map of the `with_order` loop: the value is the
visitor applied to the node and the not-yet-built child list (empty at
iteration `0`), the children are mapped in order. -/
def mapPreDirect {α R : Type} (f : Node α → List (Node R) → R) : Node α → Node R
  | .mk v cs => .mk (f (.mk v cs) []) (mapPreDirectList f cs)

/-- Children of `mapPreDirect`, in order. -/
def mapPreDirectList {α R : Type} (f : Node α → List (Node R) → R) :
    List (Node α) → List (Node R)
  | [] => []
  | c :: cs => mapPreDirect f c :: mapPreDirectList f cs
end

mutual
/-- Reference post-order map of the `with_order` loop: the children are
mapped first and the visitor sees all of them. -/
def mapPostDirect {α R : Type} (f : Node α → List (Node R) → R) : Node α → Node R
  | .mk v cs => .mk (f (.mk v cs) (mapPostDirectList f cs)) (mapPostDirectList f cs)

/-- Children of `mapPostDirect`, in order. -/
def mapPostDirectList {α R : Type} (f : Node α → List (Node R) → R) :
    List (Node α) → List (Node R)
  | [] => []
  | c :: cs => mapPostDirect f c :: mapPostDirectList f cs
end

mutual
/-- Reference post-order enumeration of the nodes of a tree: all nodes of
the children subtrees in child order, then the node itself. -/
def Node.postorderNodes {α : Type} : Node α → List (Node α)
  | .mk v cs => Node.postorderNodesList cs ++ [.mk v cs]

/-- Concatenation of the post-order enumerations of a child list. -/
def Node.postorderNodesList {α : Type} : List (Node α) → List (Node α)
  | [] => []
  | c :: cs => Node.postorderNodes c ++ Node.postorderNodesList cs
end

/-- Instruments a reduce visitor so that, besides its result, it records the
`(node, children results)` argument pairs of every visitor call, in call
order. Running `reduce_immersion` with `traceVisitor f` exposes which calls
the engine makes. -/
def traceVisitor {α R : Type} (f : Node α → List R → R) :
    Node α → List (R × List (Node α × List R)) → R × List (Node α × List R) :=
  fun n xs =>
    (f n (xs.map Prod.fst), (xs.map Prod.snd).flatten ++ [(n, xs.map Prod.fst)])

/-- Value handed down by `cascade` to the node reached by the given child
index path: the root receives `base`, and each step passes what the visitor
returned at the node being left. -/
def handedDown {α R : Type} (f : Node α → R → α × R) : Node α → R → List Nat → Option R
  | _, base, [] => some base
  | t, base, i :: p =>
    match t.children[i]? with
    | some c => handedDown f c (f t base).2 p
    | none => none

/-- The tree `10[20[40], 30[50]]` used by §8 of the spec. -/
def tree10 : Node Int :=
  .mk 10 [.mk 20 [.mk 40 []], .mk 30 [.mk 50 []]]

/-- The tree `0[10[30], 10[40]]` the spec expects from the cascade
level-shift. -/
def tree10Cascaded : Node Int :=
  .mk 0 [.mk 10 [.mk 30 []], .mk 10 [.mk 40 []]]

/-- The level-shift cascade visitor of §8:
`next = node.value + parent; node.value = parent; return next`, embedded as
`(new value, returned value)`. -/
def levelShift : Node Int → Int → Int × Int :=
  fun n parent => (parent, n.value + parent)

/-- The reduce visitor of §8: `f(node, children) = node.value + sum(children)`. -/
def sumVisitor : Node Int → List Int → Int :=
  fun n results => n.value + results.sum

mutual
/-- Induction over a tree, with the inductive hypothesis available for every
child. -/
theorem Node.inductionOn {α : Type} {motive : Node α → Prop}
    (h : ∀ v cs, (∀ c ∈ cs, motive c) → motive (.mk v cs)) : ∀ t, motive t
  | .mk v cs => h v cs (Node.inductionOnList h cs)

/-- Induction step over a child list for `Node.inductionOn`. -/
theorem Node.inductionOnList {α : Type} {motive : Node α → Prop}
    (h : ∀ v cs, (∀ c ∈ cs, motive c) → motive (.mk v cs)) :
    ∀ (cs : List (Node α)), ∀ c ∈ cs, motive c
  | d :: cs, c, hc =>
    match List.mem_cons.mp hc with
    | .inl he => he ▸ Node.inductionOn h d
    | .inr hm => Node.inductionOnList h cs c hm
end

theorem Node.children_mk {α : Type} (v : α) (cs : List (Node α)) :
    (Node.mk v cs).children = cs := rfl

theorem Node.value_mk {α : Type} (v : α) (cs : List (Node α)) :
    (Node.mk v cs).value = v := rfl

theorem map_children_eq_map {α β : Type} (f : Node α → β) (cs : List (Node α)) :
    map_children f cs = cs.map (map_immersion f) := by
  induction cs with
  | nil => rfl
  | cons c cs ih => simp [map_children, ih]

theorem async_map_children_eq_map {α β : Type} (f : Node α → β) (cs : List (Node α)) :
    async_map_children f cs = cs.map (async_map_immersion f) := by
  induction cs with
  | nil => rfl
  | cons c cs ih => simp [async_map_children, ih]

theorem reduce_results_eq_map {α R : Type} (f : Node α → List R → R) (cs : List (Node α)) :
    reduce_results f cs = cs.map (reduce_immersion f) := by
  induction cs with
  | nil => rfl
  | cons c cs ih => simp [reduce_results, ih]

theorem async_reduce_results_eq_map {α R : Type} (f : Node α → List R → R)
    (cs : List (Node α)) :
    async_reduce_results f cs = cs.map (async_reduce_immersion f) := by
  induction cs with
  | nil => rfl
  | cons c cs ih => simp [async_reduce_results, ih]

theorem cascade_children_eq_map {α R : Type} (f : Node α → R → α × R) (cs : List (Node α))
    (base : R) :
    cascade_children f cs base = cs.map (fun c => cascade_immersion f c base) := by
  induction cs with
  | nil => rfl
  | cons c cs ih => simp [cascade_children, ih]

theorem map_pre_children_eq_map {α R : Type} (f : Node α → R → R) (cs : List (Node α))
    (base : R) :
    map_pre_children f cs base = cs.map (fun c => map_pre_immersion f c base) := by
  induction cs with
  | nil => rfl
  | cons c cs ih => simp [map_pre_children, ih]

theorem mapPreDirectList_eq_map {α R : Type} (f : Node α → List (Node R) → R)
    (cs : List (Node α)) :
    mapPreDirectList f cs = cs.map (mapPreDirect f) := by
  induction cs with
  | nil => rfl
  | cons c cs ih => simp [mapPreDirectList, ih]

theorem mapPostDirectList_eq_map {α R : Type} (f : Node α → List (Node R) → R)
    (cs : List (Node α)) :
    mapPostDirectList f cs = cs.map (mapPostDirect f) := by
  induction cs with
  | nil => rfl
  | cons c cs ih => simp [mapPostDirectList, ih]

theorem postorderNodesList_eq_flatten {α : Type} (cs : List (Node α)) :
    Node.postorderNodesList cs = (cs.map Node.postorderNodes).flatten := by
  induction cs with
  | nil => rfl
  | cons c cs ih => simp [Node.postorderNodesList, ih]

theorem satAdd_eq_of_le {a b : Nat} (h : a + b ≤ USIZE_MAX) : satAdd a b = a + b :=
  min_eq_left h

theorem descendantsList_split {α : Type} (cs : List (Node α)) :
    Node.descendantsList cs = cs.length + (cs.map Node.descendants).sum := by
  induction cs with
  | nil => rfl
  | cons c cs ih => simp [Node.descendantsList, ih]; omega

theorem descendants_mem_lt {α : Type} {cs : List (Node α)} {c : Node α} (hc : c ∈ cs) :
    1 + Node.descendants c ≤ Node.descendantsList cs := by
  induction cs with
  | nil => cases hc
  | cons d cs ih =>
    rcases List.mem_cons.mp hc with he | hm
    · subst he; simp only [Node.descendantsList]; omega
    · have := ih hm
      simp only [Node.descendantsList]; omega

theorem sizeFold_eq_sum {α : Type} (cs : List (Node α)) :
    ∀ a : Nat, (∀ c ∈ cs, Node.size c = Node.descendants c) →
      a + (cs.map Node.descendants).sum ≤ USIZE_MAX →
      Node.sizeFold a cs = a + (cs.map Node.descendants).sum := by
  induction cs with
  | nil => intro a _ _; simp [Node.sizeFold]
  | cons c cs ih =>
    intro a hall hb
    simp only [List.map_cons, List.sum_cons] at hb ⊢
    have hc : Node.size c = Node.descendants c := hall c (List.mem_cons_self c cs)
    have h1 : satAdd a (Node.size c) = a + Node.descendants c := by
      rw [hc]; exact satAdd_eq_of_le (by omega)
    simp only [Node.sizeFold, h1]
    rw [ih (a + Node.descendants c) (fun d hd => hall d (List.mem_cons_of_mem c hd)) (by omega)]
    omega

theorem size_eq_descendants {α : Type} (t : Node α) (h : t.descendants ≤ USIZE_MAX) :
    t.size = t.descendants := by
  induction t using Node.inductionOn with
  | h v cs ih =>
    have hsplit := descendantsList_split cs
    have hdesc : Node.descendants (Node.mk v cs) = Node.descendantsList cs := rfl
    rw [hdesc] at h ⊢
    have hch : ∀ c ∈ cs, Node.size c = Node.descendants c := by
      intro c hc
      exact ih c hc (le_trans (by have := descendants_mem_lt hc; omega) h)
    show Node.sizeFold cs.length cs = Node.descendantsList cs
    rw [sizeFold_eq_sum cs cs.length hch (by omega), hsplit]

theorem edgeMaxList_eq_none {α : Type} {cs : List (Node α)}
    (h : Node.edgeMaxList cs = none) : cs = [] := by
  cases cs with
  | nil => rfl
  | cons c cs => simp [Node.edgeMaxList] at h

theorem edgeMaxList_le_descList {α : Type} (cs : List (Node α))
    (hall : ∀ c ∈ cs, Node.longestEdgeCount c ≤ Node.descendants c) :
    ∀ m, Node.edgeMaxList cs = some m → m + 1 ≤ Node.descendantsList cs := by
  induction cs with
  | nil => intro m hm; cases hm
  | cons c cs ih =>
    intro m hm
    have hc : Node.longestEdgeCount c ≤ Node.descendants c :=
      hall c (List.mem_cons_self c cs)
    cases hrest : Node.edgeMaxList cs with
    | none =>
      simp only [Node.edgeMaxList, hrest, Option.some.injEq] at hm
      simp only [Node.descendantsList]
      omega
    | some m2 =>
      have h2 := ih (fun d hd => hall d (List.mem_cons_of_mem c hd)) m2 hrest
      simp only [Node.edgeMaxList, hrest, Option.some.injEq] at hm
      simp only [Node.descendantsList]
      omega

theorem longestEdgeCount_le_descendants {α : Type} (t : Node α) :
    t.longestEdgeCount ≤ t.descendants := by
  induction t using Node.inductionOn with
  | h v cs ih =>
    show Node.longestEdgeCount (Node.mk v cs) ≤ Node.descendantsList cs
    cases hm : Node.edgeMaxList cs with
    | none =>
      have hnil := edgeMaxList_eq_none hm
      subst hnil
      exact Nat.zero_le _
    | some m =>
      have hb := edgeMaxList_le_descList cs ih m hm
      have he : Node.longestEdgeCount (Node.mk v cs) = 1 + m := by
        simp [Node.longestEdgeCount, hm]
      omega

theorem heightMax_of_edgeMaxList_some {α : Type} (cs : List (Node α))
    (hall : ∀ c ∈ cs, Node.height c = Node.longestEdgeCount c + 1) :
    ∀ m, Node.edgeMaxList cs = some m → Node.heightMax cs = m + 1 := by
  induction cs with
  | nil => intro m hm; cases hm
  | cons c cs ih =>
    intro m hm
    have hc : Node.height c = Node.longestEdgeCount c + 1 :=
      hall c (List.mem_cons_self c cs)
    cases hrest : Node.edgeMaxList cs with
    | none =>
      have hnil := edgeMaxList_eq_none hrest
      subst hnil
      simp only [Node.edgeMaxList, Option.some.injEq] at hm
      simp only [Node.heightMax, hc]
      omega
    | some m2 =>
      have h2 := ih (fun d hd => hall d (List.mem_cons_of_mem c hd)) m2 hrest
      simp only [Node.edgeMaxList, hrest, Option.some.injEq] at hm
      simp only [Node.heightMax, hc, h2]
      omega

theorem height_eq_edges {α : Type} (t : Node α) (h : t.descendants < USIZE_MAX) :
    t.height = t.longestEdgeCount + 1 := by
  induction t using Node.inductionOn with
  | h v cs ih =>
    have hch : ∀ c ∈ cs, Node.height c = Node.longestEdgeCount c + 1 := by
      intro c hc
      refine ih c hc (lt_of_le_of_lt ?_ h)
      show Node.descendants c ≤ Node.descendantsList cs
      have := descendants_mem_lt hc; omega
    have hdesc : Node.descendants (Node.mk v cs) = Node.descendantsList cs := rfl
    rw [hdesc] at h
    show satAdd (Node.heightMax cs) 1 = Node.longestEdgeCount (Node.mk v cs) + 1
    cases hm : Node.edgeMaxList cs with
    | none =>
      have hnil := edgeMaxList_eq_none hm
      subst hnil
      show satAdd (Node.heightMax []) 1 = Node.longestEdgeCount (Node.mk v []) + 1
      have h0 : Node.heightMax ([] : List (Node α)) = 0 := rfl
      have h1 : Node.longestEdgeCount (Node.mk v []) = 0 := rfl
      rw [h0, h1, satAdd_eq_of_le (by decide)]
    | some m =>
      have hedge : ∀ c ∈ cs, Node.longestEdgeCount c ≤ Node.descendants c :=
        fun c _ => longestEdgeCount_le_descendants c
      have hb := edgeMaxList_le_descList cs hedge m hm
      have hHM := heightMax_of_edgeMaxList_some cs hch m hm
      have hle : Node.longestEdgeCount (Node.mk v cs) = 1 + m := by
        simp [Node.longestEdgeCount, hm]
      rw [hHM, hle, satAdd_eq_of_le (by omega)]
      omega

theorem descendantsList_eq_zero_iff {α : Type} (cs : List (Node α)) :
    Node.descendantsList cs = 0 ↔ cs = [] := by
  cases cs with
  | nil => simp [Node.descendantsList]
  | cons c cs =>
    constructor
    · intro h
      exact absurd h (by simp only [Node.descendantsList]; omega)
    · intro h
      cases h

theorem preorder_children_count {α : Type} (cs : List (Node α))
    (hall : ∀ c ∈ cs, ∀ s : Nat,
      preorder_immersion (fun _ k => k + 1) c s = s + (c.descendants + 1)) :
    ∀ s : Nat, preorder_children (fun _ k => k + 1) cs s = s + Node.descendantsList cs := by
  induction cs with
  | nil => intro s; simp [preorder_children, Node.descendantsList]
  | cons c cs ih =>
    intro s
    simp only [preorder_children, hall c (List.mem_cons_self c cs),
      ih (fun d hd => hall d (List.mem_cons_of_mem c hd)), Node.descendantsList]
    omega

theorem preorder_count {α : Type} (t : Node α) :
    ∀ s : Nat, preorder_immersion (fun _ k => k + 1) t s = s + (t.descendants + 1) := by
  induction t using Node.inductionOn with
  | h v cs ih =>
    intro s
    show preorder_children (fun _ k => k + 1) cs (s + 1) = s + (Node.descendantsList cs + 1)
    rw [preorder_children_count cs ih]
    omega

theorem postorder_children_count {α : Type} (cs : List (Node α))
    (hall : ∀ c ∈ cs, ∀ s : Nat,
      postorder_immersion (fun _ k => k + 1) c s = s + (c.descendants + 1)) :
    ∀ s : Nat, postorder_children (fun _ k => k + 1) cs s = s + Node.descendantsList cs := by
  induction cs with
  | nil => intro s; simp [postorder_children, Node.descendantsList]
  | cons c cs ih =>
    intro s
    simp only [postorder_children, hall c (List.mem_cons_self c cs),
      ih (fun d hd => hall d (List.mem_cons_of_mem c hd)), Node.descendantsList]
    omega

theorem postorder_count {α : Type} (t : Node α) :
    ∀ s : Nat, postorder_immersion (fun _ k => k + 1) t s = s + (t.descendants + 1) := by
  induction t using Node.inductionOn with
  | h v cs ih =>
    intro s
    show postorder_children (fun _ k => k + 1) cs s + 1 = s + (Node.descendantsList cs + 1)
    rw [postorder_children_count cs ih]
    omega

theorem for_each_children_count {α : Type} (cs : List (Node α))
    (hall : ∀ c ∈ cs, ∀ s : Nat,
      for_each_immersion (fun _ k => k + 1) c s = s + (c.descendants + 1)) :
    ∀ s : Nat, for_each_children (fun _ k => k + 1) cs s = s + Node.descendantsList cs := by
  induction cs with
  | nil => intro s; simp [for_each_children, Node.descendantsList]
  | cons c cs ih =>
    intro s
    simp only [for_each_children, hall c (List.mem_cons_self c cs),
      ih (fun d hd => hall d (List.mem_cons_of_mem c hd)), Node.descendantsList]
    omega

theorem for_each_count {α : Type} (t : Node α) :
    ∀ s : Nat, for_each_immersion (fun _ k => k + 1) t s = s + (t.descendants + 1) := by
  induction t using Node.inductionOn with
  | h v cs ih =>
    intro s
    show for_each_children (fun _ k => k + 1) cs s + 1 = s + (Node.descendantsList cs + 1)
    rw [for_each_children_count cs ih]
    omega

theorem async_for_each_children_count {α : Type} (cs : List (Node α))
    (hall : ∀ c ∈ cs, ∀ s : Nat,
      async_for_each_immersion (fun _ k => k + 1) c s = s + (c.descendants + 1)) :
    ∀ s : Nat,
      async_for_each_children (fun _ k => k + 1) cs s = s + Node.descendantsList cs := by
  induction cs with
  | nil => intro s; simp [async_for_each_children, Node.descendantsList]
  | cons c cs ih =>
    intro s
    simp only [async_for_each_children, hall c (List.mem_cons_self c cs),
      ih (fun d hd => hall d (List.mem_cons_of_mem c hd)), Node.descendantsList]
    omega

theorem async_for_each_count {α : Type} (t : Node α) :
    ∀ s : Nat, async_for_each_immersion (fun _ k => k + 1) t s = s + (t.descendants + 1) := by
  induction t using Node.inductionOn with
  | h v cs ih =>
    intro s
    show async_for_each_children (fun _ k => k + 1) cs s + 1 = s + (Node.descendantsList cs + 1)
    rw [async_for_each_children_count cs ih]
    omega

/-- C3: for the tree `10[20[40], 30[50]]`, a pre-order for-each observes the
values `[10, 20, 40, 30, 50]` and a post-order for-each observes
`[40, 20, 50, 30, 10]`, both for the recursive `Traverse::preorder` /
`Traverse::postorder` visitors and for the `InPre` / `InPost` iterators. -/
theorem traversal_order_correct :
    preorder_immersion (fun n s => s ++ [n.value]) tree10 [] = [10, 20, 40, 30, 50] ∧
    postorder_immersion (fun n s => s ++ [n.value]) tree10 [] = [40, 20, 50, 30, 10] ∧
    (runInPre 20 [tree10]).map Node.value = [10, 20, 40, 30, 50] ∧
    (runInPost 20 [(tree10, 0)]).map Node.value = [40, 20, 50, 30, 10] :=
  ⟨rfl, rfl, rfl, rfl⟩

/-- C9 (amended): `ntree`'s `Node::add_child` appends the child at the end of
the ordered child list and returns the new child count `n + 1`; the legacy
`src/node.rs` variant also appends at the end but returns the index `n` of
the appended child instead of the count. -/
theorem add_child_appends_and_counts {α : Type} (t c : Node α) :
    (t.add_child c).1.value = t.value ∧
    (t.add_child c).1.children = t.children ++ [c] ∧
    (t.add_child c).2 = t.children.length + 1 ∧
    (t.add_child_node_rs c).2 = t.children.length := by
  cases t with
  | mk v cs =>
    refine ⟨rfl, rfl, ?_, ?_⟩ <;>
      simp [Node.add_child, Node.add_child_node_rs, Node.children]

/-- C9 (counterexample to the claim as stated): on a childless node the
legacy `src/node.rs` `add_child` returns `0`, not the new child count
`0 + 1`. -/
theorem add_child_node_rs_cex :
    (Node.add_child_node_rs (Node.new (0 : Int)) (Node.new 1)).2 ≠
      (Node.new (0 : Int)).children.length + 1 := by
  decide

/-- C10: evaluates `Node::remove_child` at an out-of-range index (the node
`10[20[40], 30[50]]` has two children, index `5` is requested): because
`bool::then_some` evaluates its argument eagerly, `Vec::remove(5)` runs and
panics (modelled `none`) instead of the documented `None` return; at the
in-range index `1` the child is removed and returned as documented. -/
theorem remove_child_eval :
    Node.remove_child tree10 5 = none ∧
    Node.remove_child tree10 1 =
      some (some (Node.mk 30 [Node.mk 50 []]),
        Node.mk 10 [Node.mk 20 [Node.mk 40 []]]) :=
  ⟨rfl, rfl⟩

/-- C1: cascade is preorder-propagating. The value of the cascaded tree's
root is what the visitor returned for (node, incoming value) — so the root
is visited with `base` — and at every position `p` the cascaded subtree
equals cascading the original subtree with the value `handedDown` along the
path, i.e. each node is visited with the value returned by the visitor's
call on its parent, and its own return value is what its children receive.
For the tree `10[20[40], 30[50]]`, base `0` and the level-shift visitor,
the mutated tree is `0[10[30], 10[40]]`. -/
theorem cascade_preorder_propagating :
    (∀ (α R : Type) (f : Node α → R → α × R) (t : Node α) (b : R),
        (cascade_immersion f t b).value = (f t b).1) ∧
    (∀ (α R : Type) (f : Node α → R → α × R) (p : List Nat) (t : Node α) (b : R)
        (sub : Node α) (r : R),
        t.getPath p = some sub → handedDown f t b p = some r →
        (cascade_immersion f t b).getPath p = some (cascade_immersion f sub r)) ∧
    cascade_immersion levelShift tree10 0 = tree10Cascaded := by
  refine ⟨?_, ?_, rfl⟩
  · intro α R f t b
    cases t with
    | mk v cs => rfl
  · intro α R f p
    induction p with
    | nil =>
      intro t b sub r hpath hhand
      simp [Node.getPath] at hpath
      simp [handedDown] at hhand
      subst hpath; subst hhand
      rfl
    | cons i p ih =>
      intro t b sub r hpath hhand
      cases t with
      | mk v cs =>
        simp only [Node.getPath, Node.children_mk] at hpath
        simp only [handedDown, Node.children_mk] at hhand
        cases hc : cs[i]? with
        | none => rw [hc] at hpath; exact absurd hpath (by simp)
        | some c =>
          rw [hc] at hpath hhand
          simp only [cascade_immersion, Node.getPath, Node.children_mk,
            cascade_children_eq_map, List.getElem?_map, hc, Option.map_some]
          exact ih c _ sub r hpath hhand

/-- C1 witness: the general propagation statement instantiated on the
§8 tree, at path `[0]` (the subtree `20[40]`), whose handed-down value is
`10`. -/
theorem cascade_preorder_propagating_witness :
    tree10.getPath [0] = some (Node.mk 20 [Node.mk 40 []]) ∧
    handedDown levelShift tree10 0 [0] = some 10 ∧
    (cascade_immersion levelShift tree10 0).getPath [0] =
      some (cascade_immersion levelShift (Node.mk 20 [Node.mk 40 []]) 10) :=
  ⟨rfl, rfl,
    cascade_preorder_propagating.2.1 Int Int levelShift [0] tree10 0
      (Node.mk 20 [Node.mk 40 []]) 10 rfl rfl⟩

/-- C5: map is shape preserving. For the plain `map!` the subtree of the
mapped tree at any position is the map of the original subtree at that
position (hence identical child counts and child order everywhere, with the
value at each position being the visitor's result for the corresponding
node); for the parent-result-passing `map_pre!` the child count at every
position is likewise unchanged. -/
theorem map_shape_preserving :
    (∀ (α β : Type) (f : Node α → β) (t : Node α) (p : List Nat),
        (map_immersion f t).getPath p = (t.getPath p).map (map_immersion f)) ∧
    (∀ (α R : Type) (f : Node α → R → R) (t : Node α) (b : R) (p : List Nat),
        ((map_pre_immersion f t b).getPath p).map Node.children_len =
          (t.getPath p).map Node.children_len) := by
  constructor
  · intro α β f t p
    induction p generalizing t with
    | nil => rfl
    | cons i p ih =>
      cases t with
      | mk v cs =>
        simp only [map_immersion, Node.getPath, Node.with_children, Node.new,
          Node.children_mk, map_children_eq_map, List.getElem?_map]
        cases hc : cs[i]? with
        | none => rfl
        | some c => exact ih c
  · intro α R f t b p
    induction p generalizing t b with
    | nil =>
      cases t with
      | mk v cs =>
        simp [map_pre_immersion, Node.getPath, Node.with_children, Node.new,
          Node.children_len, Node.children_mk, map_pre_children_eq_map]
    | cons i p ih =>
      cases t with
      | mk v cs =>
        simp only [map_pre_immersion, Node.getPath, Node.with_children, Node.new,
          Node.children_mk, map_pre_children_eq_map, List.getElem?_map]
        cases hc : cs[i]? with
        | none => rfl
        | some c => exact ih c _

/-- C6: with a side-effect-free visitor, the concurrent (asynchronous)
`map!` and `reduce!` produce exactly the value the sequential ones produce:
`join_all` reassembles child results in original child-index order, so the
dataflow — and hence every per-node result — coincides. -/
theorem sequential_concurrent_equivalent :
    ∀ (α β R : Type) (f : Node α → β) (g : Node α → List R → R) (t : Node α),
      async_map_immersion f t = map_immersion f t ∧
      async_reduce_immersion g t = reduce_immersion g t := by
  intro α β R f g t
  induction t using Node.inductionOn with
  | h v cs ih =>
    constructor
    · simp only [async_map_immersion, map_immersion, async_map_children_eq_map,
        map_children_eq_map]
      exact congrArg _ (List.map_congr_left fun c hc => (ih c hc).1)
    · simp only [async_reduce_immersion, reduce_immersion, async_reduce_results_eq_map,
        reduce_results_eq_map]
      exact congrArg _ (List.map_congr_left fun c hc => (ih c hc).2)

/-- C2: reduce is a postorder fold. Running `reduce_immersion` with an
instrumented visitor that records every `(node, children results)` call
shows the visitor is called exactly once per node, in post-order, each time
with the list of its children's already-computed results in child order,
and that the overall result is the root's; on `10[20[40], 30[50]]` with
`f(node, children) = node.value + sum(children)` the result is `150`. -/
theorem reduce_postorder_fold :
    (∀ (α R : Type) (f : Node α → List R → R) (t : Node α),
        reduce_immersion (traceVisitor f) t =
          (reduce_immersion f t,
            (Node.postorderNodes t).map fun n => (n, n.children.map (reduce_immersion f)))) ∧
    reduce_immersion sumVisitor tree10 = 150 := by
  refine ⟨?_, rfl⟩
  intro α R f t
  induction t using Node.inductionOn with
  | h v cs ih =>
    have hres : reduce_results (traceVisitor f) cs =
        cs.map fun c =>
          (reduce_immersion f c,
            (Node.postorderNodes c).map fun n => (n, n.children.map (reduce_immersion f))) := by
      rw [reduce_results_eq_map]
      exact List.map_congr_left fun c hc => ih c hc
    simp only [reduce_immersion, hres, traceVisitor, Prod.mk.injEq]
    constructor
    · simp [reduce_results_eq_map, List.map_map, Function.comp_def]
    · simp [Node.postorderNodes, postorderNodesList_eq_flatten,
        List.map_flatten, List.map_map, Function.comp_def, Node.children_mk,
        reduce_results_eq_map]

end NTreeRS

namespace NTreeRS

/-- C8 (counterexample to the claim as stated): on a single childless node
`height` returns `1`, while the longest root-to-leaf edge count is `0`. -/
theorem height_edge_count_cex :
    Node.height (Node.new (0 : Int)) ≠ Node.longestEdgeCount (Node.new (0 : Int)) := by
  decide

/-- C8 (amended): whenever the descendant count fits in `usize` (so no
saturating addition caps), `size` returns the total descendant count and is
`0` exactly for a leaf, and `height` returns the number of nodes on the
longest root-to-leaf path — the edge count plus one — and is `1` exactly
for a leaf. -/
theorem size_height_characterization {α : Type} (t : Node α)
    (h : t.descendants < USIZE_MAX) :
    t.size = t.descendants ∧ (t.size = 0 ↔ t.children = []) ∧
    t.height = t.longestEdgeCount + 1 ∧ (t.height = 1 ↔ t.children = []) := by
  have hsize := size_eq_descendants t (le_of_lt h)
  have hheight := height_eq_edges t h
  refine ⟨hsize, ?_, hheight, ?_⟩
  · cases t with
    | mk v cs =>
      rw [hsize]
      show Node.descendantsList cs = 0 ↔ cs = []
      exact descendantsList_eq_zero_iff cs
  · cases t with
    | mk v cs =>
      rw [hheight]
      show Node.longestEdgeCount (Node.mk v cs) + 1 = 1 ↔ cs = []
      cases cs with
      | nil =>
        have h0 : Node.longestEdgeCount (Node.mk v ([] : List (Node α))) = 0 := rfl
        simp [h0]
      | cons c cs =>
        have h1 : ∃ m, Node.edgeMaxList (c :: cs) = some m := by
          simp [Node.edgeMaxList]
        obtain ⟨m, hm⟩ := h1
        have h2 : Node.longestEdgeCount (Node.mk v (c :: cs)) = 1 + m := by
          simp [Node.longestEdgeCount, hm]
        simp [h2]

/-- C8 witness: the amended characterization instantiated on the §8 tree
`10[20[40], 30[50]]` (4 descendants, height 3, longest edge count 2). -/
theorem size_height_characterization_witness :
    tree10.descendants < USIZE_MAX ∧
    (tree10.size = tree10.descendants ∧ (tree10.size = 0 ↔ tree10.children = []) ∧
      tree10.height = tree10.longestEdgeCount + 1 ∧ (tree10.height = 1 ↔ tree10.children = [])) :=
  ⟨by decide, size_height_characterization tree10 (by decide)⟩

/-- C4: whenever the descendant count fits in `usize`, every for-each
traversal — the recursive `Traverse::preorder` and `Traverse::postorder`,
the `for_each!` macro, and the asynchronous `for_each!` — invokes the
visitor exactly `size(T) + 1` times, demonstrated by running each with an
invocation-counting visitor. -/
theorem for_each_exactly_once {α : Type} (t : Node α)
    (h : t.descendants ≤ USIZE_MAX) :
    preorder_immersion (fun _ k => k + 1) t 0 = t.size + 1 ∧
    postorder_immersion (fun _ k => k + 1) t 0 = t.size + 1 ∧
    for_each_immersion (fun _ k => k + 1) t 0 = t.size + 1 ∧
    async_for_each_immersion (fun _ k => k + 1) t 0 = t.size + 1 := by
  have hsize := size_eq_descendants t h
  rw [hsize]
  refine ⟨?_, ?_, ?_, ?_⟩
  · rw [preorder_count t 0]; omega
  · rw [postorder_count t 0]; omega
  · rw [for_each_count t 0]; omega
  · rw [async_for_each_count t 0]; omega

/-- C4 witness: the exactly-once count instantiated on the §8 tree (4
descendants, so 5 visitor invocations for every traversal). -/
theorem for_each_exactly_once_witness :
    tree10.descendants ≤ USIZE_MAX ∧
    (preorder_immersion (fun _ k => k + 1) tree10 0 = tree10.size + 1 ∧
      postorder_immersion (fun _ k => k + 1) tree10 0 = tree10.size + 1 ∧
      for_each_immersion (fun _ k => k + 1) tree10 0 = tree10.size + 1 ∧
      async_for_each_immersion (fun _ k => k + 1) tree10 0 = tree10.size + 1) :=
  ⟨by decide, for_each_exactly_once tree10 (by decide)⟩

end NTreeRS


namespace NTreeRS

theorem with_order_loop_break {a R : Type} (O : OrderPolicy a) (f : Node a -> List (Node R) -> R)
    (F : Nat) (root : Node a) (lf it : Nat) (v : Option R) (acc : List (Node R)) (i : Nat)
    (hcw : O.continue_with root it = some i) (hnone : root.children[i]? = none) :
    with_order_loop O f F root (lf + 1) it v acc =
      some ((if O.evaluate_self root it then some (f root acc) else v), acc) := by
  rw [with_order_loop]
  split
  · next heq => rw [hcw] at heq; cases heq
  · next i2 heq =>
    rw [hcw] at heq
    cases heq
    split
    · rfl
    · next child heq2 => rw [hnone] at heq2; cases heq2

theorem with_order_loop_descend {a R : Type} (O : OrderPolicy a) (f : Node a -> List (Node R) -> R)
    (F : Nat) (root : Node a) (lf it : Nat) (v : Option R) (acc : List (Node R)) (i : Nat)
    (child : Node a) (mapped : Node R)
    (hcw : O.continue_with root it = some i) (hchild : root.children[i]? = some child)
    (hmap : with_order_map O f F child = some mapped) :
    with_order_loop O f F root (lf + 1) it v acc =
      with_order_loop O f F root lf (it + 1)
        (if O.evaluate_self root it then some (f root acc) else v) (acc ++ [mapped]) := by
  rw [with_order_loop]
  split
  · next heq => rw [hcw] at heq; cases heq
  · next i2 heq =>
    rw [hcw] at heq
    cases heq
    split
    · next heq2 => rw [hchild] at heq2; cases heq2
    · next child2 heq2 =>
      rw [hchild] at heq2
      cases heq2
      split
      · next heq3 => rw [hmap] at heq3; cases heq3
      · next mapped2 heq3 =>
        rw [hmap] at heq3
        cases heq3
        rfl

theorem maxDeg_length_le {a : Type} (v : a) (cs : List (Node a)) :
    cs.length <= Node.maxDeg (Node.mk v cs) := by
  show cs.length <= max cs.length (Node.maxDegList cs)
  exact le_max_left _ _

theorem maxDeg_mem_le {a : Type} {cs : List (Node a)} {c : Node a} (hc : c ∈ cs) :
    Node.maxDeg c <= Node.maxDegList cs := by
  induction cs with
  | nil => cases hc
  | cons d cs ih =>
    rcases List.mem_cons.mp hc with he | hm
    · subst he
      show Node.maxDeg c <= max (Node.maxDeg c) (Node.maxDegList cs)
      exact le_max_left _ _
    · have := ih hm
      show Node.maxDeg c <= max (Node.maxDeg d) (Node.maxDegList cs)
      exact le_trans this (le_max_right _ _)

theorem maxDeg_child_le {a : Type} (v : a) {cs : List (Node a)} {c : Node a} (hc : c ∈ cs) :
    Node.maxDeg c <= Node.maxDeg (Node.mk v cs) := by
  have := maxDeg_mem_le hc
  show Node.maxDeg c <= max cs.length (Node.maxDegList cs)
  exact le_trans this (le_max_right _ _)

theorem pre_evaluate_self_false {a : Type} (root : Node a) (k : Nat) (hk : 1 <= k) :
    (PreorderPolicy a).evaluate_self root k = false := by
  show (k == 0) = false
  simp
  omega

theorem pre_loop {a R : Type} (f : Node a -> List (Node R) -> R) (F : Nat) (root : Node a)
    (hIH : ∀ c ∈ root.children,
      with_order_map (PreorderPolicy a) f F c = some (mapPreDirect f c)) :
    ∀ (lf k : Nat) (v : Option R),
      1 <= k -> k <= root.children.length ->
      root.children.length + 1 <= lf + k ->
      with_order_loop (PreorderPolicy a) f F root lf k v
          (mapPreDirectList f (root.children.take k))
        = some (v, mapPreDirectList f root.children) := by
  intro lf
  induction lf with
  | zero => intro k v hk1 hk2 hlf; omega
  | succ lf ih =>
    intro k v hk1 hk2 hlf
    by_cases hk : k < root.children.length
    · have hgk : root.children[k]? = some root.children[k] := List.getElem?_eq_getElem hk
      rw [with_order_loop_descend (PreorderPolicy a) f F root lf k v _ k
        root.children[k] (mapPreDirect f root.children[k]) rfl hgk
        (hIH root.children[k] (List.getElem_mem hk))]
      rw [pre_evaluate_self_false root k hk1]
      simp only [Bool.false_eq_true, if_false]
      have hstep : mapPreDirectList f (root.children.take k) ++ [mapPreDirect f root.children[k]]
          = mapPreDirectList f (root.children.take (k + 1)) := by
        rw [mapPreDirectList_eq_map, mapPreDirectList_eq_map, List.take_succ,
          List.map_append, hgk]
        rfl
      rw [hstep]
      exact ih (k + 1) v (by omega) (by omega) (by omega)
    · have hgk : root.children[k]? = none := by
        rw [List.getElem?_eq_none_iff]; omega
      rw [with_order_loop_break (PreorderPolicy a) f F root lf k v _ k rfl hgk]
      rw [pre_evaluate_self_false root k hk1]
      simp only [Bool.false_eq_true, if_false]
      have hkl : k = root.children.length := by omega
      subst hkl
      rw [List.take_length]

theorem pre_go {a R : Type} (f : Node a -> List (Node R) -> R) (F : Nat) :
    ∀ t : Node a, Node.maxDeg t < F ->
      with_order_map (PreorderPolicy a) f F t = some (mapPreDirect f t) := by
  intro t
  induction t using Node.inductionOn with
  | h v cs ihc =>
    intro hF
    have hlen : cs.length < F := lt_of_le_of_lt (maxDeg_length_le v cs) hF
    have hIH : ∀ c ∈ cs, with_order_map (PreorderPolicy a) f F c = some (mapPreDirect f c) :=
      fun c hc => ihc c hc (lt_of_le_of_lt (maxDeg_child_le v hc) hF)
    obtain ⟨F2, rfl⟩ : ∃ F2, F = F2 + 1 := ⟨F - 1, by omega⟩
    rw [with_order_map]
    cases cs with
    | nil =>
      rw [with_order_loop_break (PreorderPolicy a) f (F2 + 1) (Node.mk v []) F2 0 none [] 0
        rfl (by simp [Node.children_mk])]
      simp [PreorderPolicy, mapPreDirect, mapPreDirectList, Node.with_children, Node.new]
    | cons c cs2 =>
      have hchild : (Node.mk v (c :: cs2)).children[0]? = some c := by
        simp [Node.children_mk]
      rw [with_order_loop_descend (PreorderPolicy a) f (F2 + 1) (Node.mk v (c :: cs2)) F2 0
        none [] 0 c (mapPreDirect f c) rfl hchild (hIH c (List.mem_cons_self c cs2))]
      have hes0 : (PreorderPolicy a).evaluate_self (Node.mk v (c :: cs2)) 0 = true := rfl
      rw [hes0]
      simp only [if_true]
      have hacc : ([] : List (Node R)) ++ [mapPreDirect f c]
          = mapPreDirectList f ((Node.mk v (c :: cs2)).children.take 1) := by
        simp [Node.children_mk, mapPreDirectList]
      rw [hacc]
      have hb1 : 1 <= (Node.mk v (c :: cs2)).children.length := by
        simp [Node.children_mk]
      have hb2 : (Node.mk v (c :: cs2)).children.length + 1 <= F2 + 1 := by
        simp only [Node.children_mk, List.length_cons] at hlen ⊢
        omega
      rw [pre_loop f (F2 + 1) (Node.mk v (c :: cs2)) hIH F2 1
        (some (f (Node.mk v (c :: cs2)) [])) (le_refl 1) hb1 hb2]
      simp [mapPreDirect, mapPreDirectList, Node.with_children, Node.new, Node.children_mk,
        Option.getD]

end NTreeRS


namespace NTreeRS

theorem post_loop {a R : Type} (f : Node a -> List (Node R) -> R) (F : Nat) (root : Node a)
    (hIH : ∀ c ∈ root.children,
      with_order_map (PostorderPolicy a) f F c = some (mapPostDirect f c)) :
    ∀ (lf k : Nat) (v : Option R),
      1 <= k -> k <= root.children.length ->
      root.children.length + 1 <= lf + k ->
      with_order_loop (PostorderPolicy a) f F root lf k v
          (mapPostDirectList f (root.children.take k))
        = some (some (f root (mapPostDirectList f root.children)),
            mapPostDirectList f root.children) := by
  intro lf
  induction lf with
  | zero => intro k v hk1 hk2 hlf; omega
  | succ lf ih =>
    intro k v hk1 hk2 hlf
    by_cases hk : k < root.children.length
    · have hgk : root.children[k]? = some root.children[k] := List.getElem?_eq_getElem hk
      rw [with_order_loop_descend (PostorderPolicy a) f F root lf k v _ k
        root.children[k] (mapPostDirect f root.children[k]) rfl hgk
        (hIH root.children[k] (List.getElem_mem hk))]
      have hes : (PostorderPolicy a).evaluate_self root k = false := by
        show (k == root.children.length) = false
        simp
        omega
      rw [hes]
      simp only [Bool.false_eq_true, if_false]
      have hstep : mapPostDirectList f (root.children.take k) ++ [mapPostDirect f root.children[k]]
          = mapPostDirectList f (root.children.take (k + 1)) := by
        rw [mapPostDirectList_eq_map, mapPostDirectList_eq_map, List.take_succ,
          List.map_append, hgk]
        rfl
      rw [hstep]
      exact ih (k + 1) v (by omega) (by omega) (by omega)
    · have hkl : k = root.children.length := by omega
      have hgk : root.children[k]? = none := by
        rw [List.getElem?_eq_none_iff]; omega
      rw [with_order_loop_break (PostorderPolicy a) f F root lf k v _ k rfl hgk]
      have hes : (PostorderPolicy a).evaluate_self root k = true := by
        show (k == root.children.length) = true
        simp [hkl]
      rw [hes]
      simp only [if_true]
      subst hkl
      rw [List.take_length]

theorem post_go {a R : Type} (f : Node a -> List (Node R) -> R) (F : Nat) :
    ∀ t : Node a, Node.maxDeg t < F ->
      with_order_map (PostorderPolicy a) f F t = some (mapPostDirect f t) := by
  intro t
  induction t using Node.inductionOn with
  | h v cs ihc =>
    intro hF
    have hlen : cs.length < F := lt_of_le_of_lt (maxDeg_length_le v cs) hF
    have hIH : ∀ c ∈ cs, with_order_map (PostorderPolicy a) f F c = some (mapPostDirect f c) :=
      fun c hc => ihc c hc (lt_of_le_of_lt (maxDeg_child_le v hc) hF)
    obtain ⟨F2, rfl⟩ : ∃ F2, F = F2 + 1 := ⟨F - 1, by omega⟩
    rw [with_order_map]
    cases cs with
    | nil =>
      rw [with_order_loop_break (PostorderPolicy a) f (F2 + 1) (Node.mk v []) F2 0 none [] 0
        rfl (by simp [Node.children_mk])]
      simp [PostorderPolicy, mapPostDirect, mapPostDirectList, Node.with_children, Node.new,
        Node.children_mk]
    | cons c cs2 =>
      have hchild : (Node.mk v (c :: cs2)).children[0]? = some c := by
        simp [Node.children_mk]
      rw [with_order_loop_descend (PostorderPolicy a) f (F2 + 1) (Node.mk v (c :: cs2)) F2 0
        none [] 0 c (mapPostDirect f c) rfl hchild (hIH c (List.mem_cons_self c cs2))]
      have hes0 : (PostorderPolicy a).evaluate_self (Node.mk v (c :: cs2)) 0 = false := by
        show (0 == (Node.mk v (c :: cs2)).children.length) = false
        simp [Node.children_mk]
      rw [hes0]
      simp only [Bool.false_eq_true, if_false]
      have hacc : ([] : List (Node R)) ++ [mapPostDirect f c]
          = mapPostDirectList f ((Node.mk v (c :: cs2)).children.take 1) := by
        simp [Node.children_mk, mapPostDirectList]
      rw [hacc]
      have hb1 : 1 <= (Node.mk v (c :: cs2)).children.length := by
        simp [Node.children_mk]
      have hb2 : (Node.mk v (c :: cs2)).children.length + 1 <= F2 + 1 := by
        simp only [Node.children_mk, List.length_cons] at hlen ⊢
        omega
      rw [post_loop f (F2 + 1) (Node.mk v (c :: cs2)) hIH F2 1 none (le_refl 1) hb1 hb2]
      simp [mapPostDirect, mapPostDirectList, Node.with_children, Node.new, Node.children_mk,
        Option.getD]

end NTreeRS


namespace NTreeRS

/-- C7: for both `Preorder` and `Postorder` the per-node visitation loop of
the generic `with_order` engine terminates on every finite tree through the
`break` taken when the requested child index is out of range (their
`continue_with` returns the iteration index, so once the children are
exhausted the requested index falls outside the child list), and that
request is ordinary loop termination, not an error: modelling the §4.1
loop as unbounded with a per-node iteration budget `F`, any budget
exceeding the largest child count in the tree makes the whole map return a
result (never the fuel-exhaustion `none`), namely the evident direct
pre-order (resp. post-order) recursive map. -/
theorem order_loop_terminates {a R : Type} (f : Node a -> List (Node R) -> R)
    (t : Node a) (F : Nat) (h : Node.maxDeg t < F) :
    with_order_map (PreorderPolicy a) f F t = some (mapPreDirect f t) ∧
    with_order_map (PostorderPolicy a) f F t = some (mapPostDirect f t) :=
  ⟨pre_go f F t h, post_go f F t h⟩

/-- C7 witness: on the §8 tree (largest child count 2) any budget of at
least 3 loop iterations per node suffices, for both policies. -/
theorem order_loop_terminates_witness :
    Node.maxDeg tree10 < 3 ∧
    (with_order_map (PreorderPolicy Int) (fun (n : Node Int) (acc : List (Node Int)) => n.value + acc.length) 3 tree10
        = some (mapPreDirect (fun (n : Node Int) (acc : List (Node Int)) => n.value + acc.length) tree10) ∧
      with_order_map (PostorderPolicy Int) (fun (n : Node Int) (acc : List (Node Int)) => n.value + acc.length) 3 tree10
        = some (mapPostDirect (fun (n : Node Int) (acc : List (Node Int)) => n.value + acc.length) tree10)) :=
  ⟨by decide,
    order_loop_terminates (fun (n : Node Int) (acc : List (Node Int)) => n.value + acc.length) tree10 3 (by decide)⟩

end NTreeRS
